import Mathlib

set_option maxRecDepth 100000

/-!
Verification development for a small UTXO blockchain written in Rust
(`block.rs`, `blockchain.rs`, `wallet.rs`, `main.rs`).  The data model,
hashing (SHA-256 over the serde_json serialization), validation, mining,
UTXO-index rebuilding and the network event handlers are shallowly embedded
as executable Lean functions; Rust `String` is modelled as `List Char`,
`HashMap<String, Vec<(u32, u64)>>` as an association list, machine integers
as `Nat`/`Int` (with `% 2^64` where an overflowing increment occurs).
-/

namespace BlockchainRust

/-! ## Bit-level helpers for 32-bit words represented as `Nat` -/

def mask32 : Nat := 4294967296

def add32 (a b : Nat) : Nat := (a + b) % mask32

def rotr32 (x k : Nat) : Nat :=
  ((x >>> k) ||| (x <<< (32 - k))) % mask32

def shr32 (x k : Nat) : Nat := x >>> k

def not32 (x : Nat) : Nat := Nat.xor x 4294967295

/-! ## SHA-256 (FIPS 180-4), bytes as `Nat` in `[0, 256)` -/

def shaK : List Nat :=
  [1116352408, 1899447441, 3049323471, 3921009573, 961987163,
   1508970993, 2453635748, 2870763221, 3624381080, 310598401,
   607225278, 1426881987, 1925078388, 2162078206, 2614888103,
   3248222580, 3835390401, 4022224774, 264347078, 604807628,
   770255983, 1249150122, 1555081692, 1996064986, 2554220882,
   2821834349, 2952996808, 3210313671, 3336571891, 3584528711,
   113926993, 338241895, 666307205, 773529912, 1294757372,
   1396182291, 1695183700, 1986661051, 2177026350, 2456956037,
   2730485921, 2820302411, 3259730800, 3345764771, 3516065817,
   3600352804, 4094571909, 275423344, 430227734, 506948616,
   659060556, 883997877, 958139571, 1322822218, 1537002063,
   1747873779, 1955562222, 2024104815, 2227730452, 2361852424,
   2428436474, 2756734187, 3204031479, 3329325298]

structure Sha8 where
  a : Nat
  b : Nat
  c : Nat
  d : Nat
  e : Nat
  f : Nat
  g : Nat
  h : Nat

def shaInit : Sha8 :=
  ⟨1779033703, 3144134277, 1013904242, 2773480762,
   1359893119, 2600822924, 528734635, 1541459225⟩

def bigSigma0 (x : Nat) : Nat :=
  Nat.xor (rotr32 x 2) (Nat.xor (rotr32 x 13) (rotr32 x 22))

def bigSigma1 (x : Nat) : Nat :=
  Nat.xor (rotr32 x 6) (Nat.xor (rotr32 x 11) (rotr32 x 25))

def smallSigma0 (x : Nat) : Nat :=
  Nat.xor (rotr32 x 7) (Nat.xor (rotr32 x 18) (shr32 x 3))

def smallSigma1 (x : Nat) : Nat :=
  Nat.xor (rotr32 x 17) (Nat.xor (rotr32 x 19) (shr32 x 10))

def chFn (e f g : Nat) : Nat :=
  Nat.xor (Nat.land e f) (Nat.land (not32 e) g)

def majFn (a b c : Nat) : Nat :=
  Nat.xor (Nat.land a b) (Nat.xor (Nat.land a c) (Nat.land b c))

/-- One compression round consuming a round constant `k` and word `w`. -/
def shaRound (s : Sha8) (k w : Nat) : Sha8 :=
  let t1 := (s.h + bigSigma1 s.e + chFn s.e s.f s.g + k + w) % mask32
  let t2 := (bigSigma0 s.a + majFn s.a s.b s.c) % mask32
  ⟨(t1 + t2) % mask32, s.a, s.b, s.c, (s.d + t1) % mask32, s.e, s.f, s.g⟩

def shaRounds (s : Sha8) : List Nat → List Nat → Sha8
  | k :: ks, w :: ws => shaRounds (shaRound s k w) ks ws
  | _, _ => s

/-- Big-endian 32-bit words from a list of bytes (groups of four). -/
def bytesToWords : List Nat → List Nat
  | b1 :: b2 :: b3 :: b4 :: rest =>
      (b1 * 16777216 + b2 * 65536 + b3 * 256 + b4) :: bytesToWords rest
  | _ => []

/-- Extends the reversed schedule prefix by one word. -/
def scheduleStep (rev : List Nat) : List Nat :=
  let w2 := rev.getD 1 0
  let w7 := rev.getD 6 0
  let w15 := rev.getD 14 0
  let w16 := rev.getD 15 0
  ((smallSigma1 w2 + w7 + smallSigma0 w15 + w16) % mask32) :: rev

def scheduleExtend : Nat → List Nat → List Nat
  | 0, rev => rev
  | n + 1, rev => scheduleExtend n (scheduleStep rev)

/-- The 64-word message schedule of one 512-bit chunk (16 words in). -/
def schedule (ws : List Nat) : List Nat :=
  (scheduleExtend 48 ws.reverse).reverse

def addState (s t : Sha8) : Sha8 :=
  ⟨add32 s.a t.a, add32 s.b t.b, add32 s.c t.c, add32 s.d t.d,
   add32 s.e t.e, add32 s.f t.f, add32 s.g t.g, add32 s.h t.h⟩

/-- Compress one 64-byte chunk into the running state. -/
def shaChunk (s : Sha8) (chunk : List Nat) : Sha8 :=
  addState s (shaRounds s shaK (schedule (bytesToWords chunk)))

def chunks64Aux : Nat → List Nat → List (List Nat)
  | _, [] => []
  | 0, _ => []
  | fuel + 1, l => l.take 64 :: chunks64Aux fuel (l.drop 64)

def chunks64 (l : List Nat) : List (List Nat) := chunks64Aux l.length l

/-- Big-endian 8-byte encoding of the 64-bit value `n`. -/
def be64 (n : Nat) : List Nat :=
  [(n >>> 56) % 256, (n >>> 48) % 256, (n >>> 40) % 256, (n >>> 32) % 256,
   (n >>> 24) % 256, (n >>> 16) % 256, (n >>> 8) % 256, n % 256]

/-- SHA-256 padding: `0x80`, zeros to 56 mod 64, then the bit length. -/
def shaPad (msg : List Nat) : List Nat :=
  let len := msg.length
  msg ++ 128 :: List.replicate ((119 - len % 64) % 64) 0 ++ be64 (len * 8)

def hexDigit (n : Nat) : Char :=
  if n < 10 then Char.ofNat (48 + n) else Char.ofNat (87 + n)

/-- Lowercase hexadecimal rendering of one 32-bit word (8 digits). -/
def wordToHex (w : Nat) : List Char :=
  [hexDigit ((w >>> 28) % 16), hexDigit ((w >>> 24) % 16),
   hexDigit ((w >>> 20) % 16), hexDigit ((w >>> 16) % 16),
   hexDigit ((w >>> 12) % 16), hexDigit ((w >>> 8) % 16),
   hexDigit ((w >>> 4) % 16), hexDigit (w % 16)]

/-- SHA-256 of a byte list, rendered as 64 lowercase hex characters
(the composition `hex::encode(Sha256::digest(bytes))` from the source). -/
def sha256hex (msg : List Nat) : List Char :=
  let s := (chunks64 (shaPad msg)).foldl shaChunk shaInit
  wordToHex s.a ++ wordToHex s.b ++ wordToHex s.c ++ wordToHex s.d ++
  wordToHex s.e ++ wordToHex s.f ++ wordToHex s.g ++ wordToHex s.h

/-! ## UTF-8 encoding of `List Char` (Rust strings are UTF-8) -/

def utf8EncodeChar (c : Char) : List Nat :=
  let n := c.toNat
  if n < 128 then [n]
  else if n < 2048 then [192 + n / 64, 128 + n % 64]
  else if n < 65536 then [224 + n / 4096, 128 + (n / 64) % 64, 128 + n % 64]
  else [240 + n / 262144, 128 + (n / 4096) % 64, 128 + (n / 64) % 64, 128 + n % 64]

def utf8Encode (s : List Char) : List Nat :=
  s.foldr (fun c acc => utf8EncodeChar c ++ acc) []

end BlockchainRust

namespace BlockchainRust

/-! ## serde_json compact serialization (field order = declaration order) -/

def lbrace : Char := '\x7b'

def rbrace : Char := '\x7d'

def jsonEscapeChar (c : Char) : List Char :=
  if c = '"' then ['\\', '"']
  else if c = '\\' then ['\\', '\\']
  else if 32 ≤ c.toNat then [c]
  else if c.toNat = 8 then ['\\', 'b']
  else if c.toNat = 9 then ['\\', 't']
  else if c.toNat = 10 then ['\\', 'n']
  else if c.toNat = 12 then ['\\', 'f']
  else if c.toNat = 13 then ['\\', 'r']
  else ['\\', 'u', '0', '0', hexDigit (c.toNat / 16), hexDigit (c.toNat % 16)]

def jsonString (s : List Char) : List Char :=
  '"' :: s.foldr (fun c acc => jsonEscapeChar c ++ acc) [] ++ ['"']

def natChars (n : Nat) : List Char := (Nat.repr n).data

def intChars (i : Int) : List Char :=
  if i < 0 then '-' :: natChars i.natAbs else natChars i.toNat

def commaSep : List (List Char) → List Char
  | [] => []
  | [x] => x
  | x :: xs => x ++ ',' :: commaSep xs

def jsonArray (elems : List (List Char)) : List Char :=
  '[' :: commaSep elems ++ [']']

/-! ## Data model (`block.rs`) -/

/-- `TxInput` from block.rs: reference to a previous transaction output. -/
structure TxInput where
  prev_tx : List Char
  prev_index : Nat
  script_sig : List Char
deriving DecidableEq, Repr

/-- `TxOutput` from block.rs: spendable amount and locking address. -/
structure TxOutput where
  value : Nat
  script_pubkey : List Char
deriving DecidableEq, Repr

/-- `Transaction` from block.rs. -/
structure Transaction where
  inputs : List TxInput
  outputs : List TxOutput
deriving DecidableEq, Repr

/-- `BlockHeader` from block.rs (serde field order: timestamp, prev_hash,
merkle_root, nonce, difficulty). -/
structure BlockHeader where
  timestamp : Int
  prev_hash : List Char
  merkle_root : List Char
  nonce : Nat
  difficulty : Nat
deriving DecidableEq, Repr

/-- `Block` from block.rs. -/
structure Block where
  header : BlockHeader
  transactions : List Transaction
deriving DecidableEq, Repr

/-- The UTXO map `HashMap<String, Vec<(u32, u64)>>`, modelled as an
association list (insertion appends a fresh key at the end). -/
abbrev UtxoMap := List (List Char × List (Nat × Nat))

/-- `Blockchain` from blockchain.rs. -/
structure Blockchain where
  blocks : List Block
  utxo_set : UtxoMap
  difficulty : Nat
deriving DecidableEq, Repr

def serializeTxInput (i : TxInput) : List Char :=
  lbrace :: ("\"prev_tx\":".data ++ jsonString i.prev_tx ++
    ",\"prev_index\":".data ++ natChars i.prev_index ++
    ",\"script_sig\":".data ++ jsonString i.script_sig) ++ [rbrace]

def serializeTxOutput (o : TxOutput) : List Char :=
  lbrace :: ("\"value\":".data ++ natChars o.value ++
    ",\"script_pubkey\":".data ++ jsonString o.script_pubkey) ++ [rbrace]

def serializeTransaction (t : Transaction) : List Char :=
  lbrace :: ("\"inputs\":".data ++ jsonArray (t.inputs.map serializeTxInput) ++
    ",\"outputs\":".data ++ jsonArray (t.outputs.map serializeTxOutput)) ++ [rbrace]

def serializeHeader (h : BlockHeader) : List Char :=
  lbrace :: ("\"timestamp\":".data ++ intChars h.timestamp ++
    ",\"prev_hash\":".data ++ jsonString h.prev_hash ++
    ",\"merkle_root\":".data ++ jsonString h.merkle_root ++
    ",\"nonce\":".data ++ natChars h.nonce ++
    ",\"difficulty\":".data ++ natChars h.difficulty) ++ [rbrace]

def serializeBlock (b : Block) : List Char :=
  lbrace :: ("\"header\":".data ++ serializeHeader b.header ++
    ",\"transactions\":".data ++ jsonArray (b.transactions.map serializeTransaction)) ++ [rbrace]

/-- `Block::calculate_hash`: SHA-256 of the serde_json serialization,
hex-encoded. -/
def Block.calculate_hash (b : Block) : List Char :=
  sha256hex (utf8Encode (serializeBlock b))

/-- `Blockchain::calculate_tx_hash` (ignores `self`): SHA-256 of the
serde_json serialization of the transaction, hex-encoded. -/
def calculate_tx_hash (tx : Transaction) : List Char :=
  sha256hex (utf8Encode (serializeTransaction tx))

/-- Modelled from the spec: `Transaction::calculate_hash` is called from
main.rs but its definition is not among the provided sources; per the spec,
a transaction's identity is the hash of its serialized form, which is
exactly `Blockchain::calculate_tx_hash`. -/
def Transaction.calculate_hash (tx : Transaction) : List Char :=
  sha256hex (utf8Encode (serializeTransaction tx))

/-- The all-zero 64-character coinbase sentinel from the source. -/
def zeroSentinel : List Char := List.replicate 64 '0'

/-- `Block::is_valid`: difficulty 0 accepts anything, otherwise the hash
must start with `difficulty` many `'0'` characters. -/
def Block.is_valid (b : Block) : Bool :=
  let hash := b.calculate_hash
  let pz := b.header.difficulty
  if pz = 0 then true
  else List.isPrefixOf (List.replicate pz '0') hash

def u64Mod : Nat := 18446744073709551616

/-- One mining step: `self.header.nonce += 1` (wrapping at `2^64`). -/
def mineStep (b : Block) : Block :=
  { b with header := { b.header with nonce := (b.header.nonce + 1) % u64Mod } }

/-- Loop body of `Block::mine` with explicit fuel
(`max_iterations - iterations`); returns the block and iteration count. -/
def mineAux : Nat → Block → Nat → Block × Nat
  | 0, b, iterations => (b, iterations)
  | fuel + 1, b, iterations =>
    if b.is_valid then (b, iterations)
    else mineAux fuel (mineStep b) (iterations + 1)

def maxIterations : Nat := 1000000

/-- `Block::mine`: increments the nonce until the block is valid or
`max_iterations = 1000000` attempts were made. -/
def Block.mine (b : Block) : Block × Nat := mineAux maxIterations b 0

/-- `Block::new` (the `Utc::now()` timestamp is passed explicitly). -/
def Block.new (now : Int) (prev_hash : List Char) (difficulty : Nat) : Block :=
  ⟨⟨now, prev_hash, [], 0, difficulty⟩, []⟩

end BlockchainRust

namespace BlockchainRust

/-! ## UTXO map operations (`HashMap` as association list) -/

/-- `HashMap::get` on the association-list model. -/
def mapGet : UtxoMap → List Char → Option (List (Nat × Nat))
  | [], _ => none
  | (k', l) :: rest, k => if k' = k then some l else mapGet rest k

/-- `entry(k).or_insert(vec![]).push(p)`: append `p` to the entry of `k`,
creating the entry if absent. -/
def upsertPush : UtxoMap → List Char → Nat × Nat → UtxoMap
  | [], k, p => [(k, [p])]
  | (k', l) :: rest, k, p =>
    if k' = k then (k', l ++ [p]) :: rest else (k', l) :: upsertPush rest k p

/-- Pass-2 removal: `retain(|(idx, _)| idx != i)` on the entry of `k`,
dropping the entry when it becomes empty; no-op when `k` is absent. -/
def removeIdx : UtxoMap → List Char → Nat → UtxoMap
  | [], _, _ => []
  | (k', l) :: rest, k, i =>
    if k' = k then
      let l' := l.filter (fun q => decide (q.1 ≠ i))
      if l' = [] then rest else (k', l') :: rest
    else (k', l) :: removeIdx rest k i

/-- `tx.outputs.iter().enumerate()` restricted to `(index, value)` pairs,
with an explicit starting index. -/
def outPairsAux (i : Nat) : List TxOutput → List (Nat × Nat)
  | [] => []
  | o :: rest => (i, o.value) :: outPairsAux (i + 1) rest

def outPairs (tx : Transaction) : List (Nat × Nat) := outPairsAux 0 tx.outputs

/-- Pass 1 of `update_utxo_set` for one transaction: push every output
under the transaction's hash. -/
def insertTxOutputs (m : UtxoMap) (tx : Transaction) : UtxoMap :=
  (outPairs tx).foldl (fun m p => upsertPush m (calculate_tx_hash tx) p) m

/-- Pass 2 of `update_utxo_set` for one input: coinbase sentinel inputs are
skipped, others remove their referenced `(prev_tx, prev_index)` entry. -/
def spendInput (m : UtxoMap) (inp : TxInput) : UtxoMap :=
  if inp.prev_tx = zeroSentinel then m
  else removeIdx m inp.prev_tx inp.prev_index

def pass1 (m : UtxoMap) (blocks : List Block) : UtxoMap :=
  blocks.foldl (fun m b => b.transactions.foldl insertTxOutputs m) m

def pass2 (m : UtxoMap) (blocks : List Block) : UtxoMap :=
  blocks.foldl
    (fun m b => b.transactions.foldl
      (fun m t => t.inputs.foldl spendInput m) m) m

/-- The body of `Blockchain::update_utxo_set`: clear, insert all outputs,
remove all spent outputs, retain non-empty entries. -/
def computeUtxo (blocks : List Block) : UtxoMap :=
  (pass2 (pass1 [] blocks) blocks).filter (fun e => decide (e.2 ≠ []))

/-- `Blockchain::update_utxo_set` (also `rebuild_utxo_set`). -/
def Blockchain.update_utxo_set (bc : Blockchain) : Blockchain :=
  { bc with utxo_set := computeUtxo bc.blocks }

/-- `Blockchain::rebuild_utxo_set` just delegates to `update_utxo_set`. -/
def Blockchain.rebuild_utxo_set (bc : Blockchain) : Blockchain :=
  bc.update_utxo_set

/-! ## Genesis and constructor (`blockchain.rs`) -/

/-- The fixed genesis coinbase transaction. -/
def genesisCoinbase : Transaction :=
  ⟨[⟨zeroSentinel, 0, "Genesis Block - Blockchain Demo".data⟩],
   [⟨100, "genesis_address".data⟩]⟩

/-- The genesis block built by `create_genesis_block` for a blockchain of
the given difficulty. -/
def genesisBlock (difficulty : Nat) : Block :=
  ⟨⟨1748793600, ['0'], "genesis_merkle_root".data, 0, difficulty⟩,
   [genesisCoinbase]⟩

/-- `Blockchain::create_genesis_block`: push the fixed genesis block. -/
def Blockchain.create_genesis_block (bc : Blockchain) : Blockchain :=
  { bc with blocks := bc.blocks ++ [genesisBlock bc.difficulty] }

/-- `Blockchain::new`: empty chain, genesis pushed, UTXO set rebuilt. -/
def Blockchain.new (difficulty : Nat) : Blockchain :=
  (Blockchain.create_genesis_block ⟨[], [], difficulty⟩).update_utxo_set

/-! ## Validation (`blockchain.rs`) -/

/-- `Blockchain::validate_transaction`: every non-coinbase input must
reference a present `(prev_tx, prev_index)` entry of the UTXO set. -/
def Blockchain.validate_transaction (bc : Blockchain) (tx : Transaction) : Bool :=
  tx.inputs.all fun inp =>
    if inp.prev_tx = zeroSentinel then true
    else
      match mapGet bc.utxo_set inp.prev_tx with
      | some outputs => outputs.any fun q => decide (q.1 = inp.prev_index)
      | none => false

/-- `Blockchain::validate_block`: proof-of-work, previous-hash linkage
against the chain tip (`"0"` for an empty chain), and all transactions. -/
def Blockchain.validate_block (bc : Blockchain) (b : Block) : Bool :=
  if ¬ b.is_valid then false
  else
    match bc.blocks.getLast? with
    | some prev =>
      if b.header.prev_hash ≠ prev.calculate_hash then false
      else b.transactions.all bc.validate_transaction
    | none =>
      if b.header.prev_hash ≠ ['0'] then false
      else b.transactions.all bc.validate_transaction

/-! ## Chain mutation (`blockchain.rs`; file persistence is not modelled) -/

/-- `Blockchain::add_received_block`: push unconditionally and rebuild. -/
def Blockchain.add_received_block (bc : Blockchain) (b : Block) : Blockchain :=
  Blockchain.update_utxo_set { bc with blocks := bc.blocks ++ [b] }

/-- `Blockchain::replace_chain`: wholesale replacement, no validation and
no UTXO rebuild of its own. -/
def Blockchain.replace_chain (bc : Blockchain) (blocks : List Block) : Blockchain :=
  { bc with blocks := blocks }

/-! ## Wallet (`wallet.rs`) -/

/-- Inner loop of `Wallet::create_transaction` over one UTXO entry: breaks
as soon as the target amount is covered, otherwise selects the pair
(the `u64` accumulation wraps at `2^64`). -/
def selectFromEntry (addr : List Char) (amount : Nat) (txId : List Char) :
    List (Nat × Nat) → List TxInput × Nat → List TxInput × Nat
  | [], acc => acc
  | (i, v) :: rest, acc =>
    if acc.2 ≥ amount then acc
    else selectFromEntry addr amount txId rest
      (acc.1 ++ [⟨txId, i, addr⟩], (acc.2 + v) % u64Mod)

/-- `Wallet::create_transaction` for a wallet whose address is `addr`:
greedy UTXO selection in map-iteration order, change output on overshoot,
`none` when the total available is insufficient. -/
def Wallet.create_transaction (addr to_address : List Char) (amount : Nat)
    (utxo_set : UtxoMap) : Option Transaction :=
  let sel := utxo_set.foldl (fun acc e => selectFromEntry addr amount e.1 e.2 acc) ([], 0)
  if sel.2 < amount then none
  else
    some ⟨sel.1,
      ⟨amount, to_address⟩ ::
        (if sel.2 > amount then [⟨sel.2 - amount, addr⟩] else [])⟩

/-! ## Network event handlers (`main.rs`, state effects only) -/

/-- Transactions of all blocks in chain order. -/
def txsOf (blocks : List Block) : List Transaction :=
  blocks.foldr (fun b acc => b.transactions ++ acc) []

/-- Result of the `NetworkEvent::NewBlock` handler: the chain, the pending
pool, and whether a `RequestBlocks` resync was emitted. -/
structure NewBlockResult where
  chain : Blockchain
  pool : List Transaction
  requested_sync : Bool
deriving Repr

/-- The `NetworkEvent::NewBlock` handler from main.rs: validate, then
append and reconcile the pool, or leave state unchanged and request sync. -/
def handleNewBlock (bc : Blockchain) (pool : List Transaction) (b : Block) :
    NewBlockResult :=
  if bc.validate_block b then
    let bc' := bc.add_received_block b
    let hashes := b.transactions.map Transaction.calculate_hash
    ⟨bc', pool.filter (fun tx => decide (tx.calculate_hash ∉ hashes)), false⟩
  else ⟨bc, pool, true⟩

/-- Candidate-chain verification loop of the `SendBlocks` handler: the
first block only has its `prev_hash = "0"` checked and is pushed onto the
temporary chain; every later block is fully validated against it. -/
def validateCandidateAux (temp : Blockchain) (first : Bool) : List Block → Bool
  | [] => true
  | b :: rest =>
    if first then
      if b.header.prev_hash ≠ ['0'] then false
      else
        validateCandidateAux
          (Blockchain.rebuild_utxo_set { temp with blocks := temp.blocks ++ [b] })
          false rest
    else if temp.validate_block b then
      validateCandidateAux (temp.add_received_block b) false rest
    else false

/-- The `SendBlocks` handler's verification of a candidate chain against a
disposable `Blockchain::new(difficulty)` (which already holds a genesis). -/
def validateCandidate (difficulty : Nat) (cand : List Block) : Bool :=
  validateCandidateAux (Blockchain.new difficulty) true cand

/-- Result of the `NetworkEvent::SendBlocks` handler. -/
structure SendBlocksResult where
  chain : Blockchain
  pool : List Transaction
  sync_in_progress : Bool
  replaced : Bool
deriving Repr

/-- The `NetworkEvent::SendBlocks` handler from main.rs: an empty candidate
returns early (leaving the sync flag untouched); a strictly longer
candidate is verified and, on success, replaces the chain and reconciles
the pool; all non-empty paths reset the sync flag. The equal-length
branch only prints a comparison and is state-neutral. -/
def handleSendBlocks (bc : Blockchain) (pool : List Transaction) (sync : Bool)
    (blocks : List Block) : SendBlocksResult :=
  if blocks = [] then ⟨bc, pool, sync, false⟩
  else if blocks.length > bc.blocks.length then
    if validateCandidate bc.difficulty blocks then
      let bc' := (bc.replace_chain blocks).rebuild_utxo_set
      let confirmed := (txsOf blocks).map Transaction.calculate_hash
      ⟨bc', pool.filter (fun tx => decide (tx.calculate_hash ∉ confirmed)), false, true⟩
    else ⟨bc, pool, false, false⟩
  else ⟨bc, pool, false, false⟩

end BlockchainRust

namespace BlockchainRust

/-! ## Specification-side definitions (formalizing the claims' wording) -/

/-- Spec-side reading of claim C1's validation condition: every candidate
block, including index 0, is fully re-validated (proof-of-work, prev_hash
linkage with `"0"` for the empty verification chain, and every transaction)
against a growing disposable chain. -/
def specRevalidatesAux (temp : Blockchain) : List Block → Bool
  | [] => true
  | b :: rest =>
    temp.validate_block b && specRevalidatesAux (temp.add_received_block b) rest

/-- Claim C1's condition, seeded from an empty verification chain of the
local difficulty. -/
def specRevalidates (difficulty : Nat) (cand : List Block) : Bool :=
  specRevalidatesAux ⟨[], [], difficulty⟩ cand

/-- Full validation of a block segment continuing a given chain: each block
passes `validate_block` and is then appended (used to characterize the
code's actual fork rule for blocks after index 0). -/
def chainSegValid (temp : Blockchain) : List Block → Prop
  | [] => True
  | b :: rest =>
    temp.validate_block b = true ∧ chainSegValid (temp.add_received_block b) rest

/-- The verification chain the `SendBlocks` handler has built right after
processing candidate block 0: `Blockchain::new`'s own genesis plus the
candidate's first block, with the UTXO index rebuilt. -/
def c1Seed (difficulty : Nat) (c0 : Block) : Blockchain :=
  Blockchain.rebuild_utxo_set
    { Blockchain.new difficulty with blocks := (Blockchain.new difficulty).blocks ++ [c0] }

/-! Multiset bookkeeping for conservation (claim C4). -/

/-- All inputs of a transaction list, in order. -/
def inputsOf (txs : List Transaction) : List TxInput :=
  txs.foldr (fun t acc => t.inputs ++ acc) []

/-- The non-coinbase inputs (those whose `prev_tx` is not the sentinel). -/
def nonCoinbase (l : List TxInput) : List TxInput :=
  l.filter (fun i => decide (i.prev_tx ≠ zeroSentinel))

/-- The `(prev_tx, prev_index)` reference of an input. -/
def refOf (i : TxInput) : List Char × Nat := (i.prev_tx, i.prev_index)

/-- First transaction of the list with the given hash, if any. -/
def findTx : List Transaction → List Char → Option Transaction
  | [], _ => none
  | t :: ts, h => if calculate_tx_hash t = h then some t else findTx ts h

/-- The value of the chain output referenced by a `(prev_tx, prev_index)`
pair, when that output exists. -/
def refLookup (txs : List Transaction) (r : List Char × Nat) : Option Nat :=
  (findTx txs r.1).bind fun t => (t.outputs.get? r.2).map TxOutput.value

/-- The value consumed by one input (the referenced output's value). -/
def refValue (txs : List Transaction) (inp : TxInput) : Option Nat :=
  refLookup txs (refOf inp)

/-- All output values created by the chain's transactions, in order. -/
def createdOf (txs : List Transaction) : List Nat :=
  txs.foldr (fun t acc => t.outputs.map TxOutput.value ++ acc) []

def createdList (blocks : List Block) : List Nat := createdOf (txsOf blocks)

/-- The values consumed by the chain's non-coinbase inputs (an input whose
reference does not exist in the chain consumes nothing). -/
def consumedList (blocks : List Block) : List Nat :=
  (nonCoinbase (inputsOf (txsOf blocks))).filterMap (refValue (txsOf blocks))

/-- All values recorded as unspent in a UTXO map, in order. -/
def utxoValues (m : UtxoMap) : List Nat :=
  m.foldr (fun e acc => e.2.map Prod.snd ++ acc) []

/-! Characterization machinery for the UTXO rebuild. -/

def keysOf (m : UtxoMap) : List (List Char) := m.map Prod.fst

/-- Sequential pass-2 removals for a list of references. -/
def applyRefs (m : UtxoMap) (refs : List (List Char × Nat)) : UtxoMap :=
  refs.foldl (fun m r => removeIdx m r.1 r.2) m

/-- The UTXO entry of transaction `t` once the references in `S` have been
consumed: its enumerated outputs minus the consumed indices. -/
def entryFor (S : List (List Char × Nat)) (t : Transaction) : List (Nat × Nat) :=
  (outPairs t).filter (fun p => decide ((calculate_tx_hash t, p.1) ∉ S))

/-- The fully rebuilt map after consuming the references in `S`: one entry
per transaction in chain order, empty entries dropped. -/
def mState (txs : List Transaction) (S : List (List Char × Nat)) : UtxoMap :=
  (txs.map (fun t => (calculate_tx_hash t, entryFor S t))).filter
    (fun e => decide (e.2 ≠ []))

/-- Per-transaction consumed values under the reference set `S`. -/
def consumedFor (S : List (List Char × Nat)) (t : Transaction) : List Nat :=
  ((outPairs t).filter (fun p => decide ((calculate_tx_hash t, p.1) ∈ S))).map Prod.snd

/-- Concatenation over the chain of the per-transaction unspent values. -/
def sumValuesList (txs : List Transaction) (S : List (List Char × Nat)) : List Nat :=
  txs.foldr (fun t acc => (entryFor S t).map Prod.snd ++ acc) []

/-- Concatenation over the chain of the per-transaction consumed values. -/
def sumConsumed (txs : List Transaction) (S : List (List Char × Nat)) : List Nat :=
  txs.foldr (fun t acc => consumedFor S t ++ acc) []

/-! ## Concrete inputs for counterexamples and witnesses -/

/-- A transaction whose only input dangles (references a transaction hash
of 64 `'f'` characters that exists nowhere); it fails
`validate_transaction` against every UTXO set built from real outputs. -/
def badTx : Transaction :=
  ⟨[⟨List.replicate 64 'f', 0, ['x']⟩], [⟨5, "attacker".data⟩]⟩

/-- A fake genesis: `prev_hash = "0"`, difficulty 0, but carrying `badTx`
(so it does not re-validate). -/
def c1Bad0 : Block :=
  ⟨⟨1748793600, ['0'], "genesis_merkle_root".data, 0, 0⟩, [genesisCoinbase, badTx]⟩

/-- A successor of `c1Bad0` with correct linkage and no transactions. -/
def c1Next : Block := ⟨⟨1748793601, Block.calculate_hash c1Bad0, [], 1, 0⟩, []⟩

def c1Local : Blockchain := Blockchain.new 0

def c1Cand : List Block := [c1Bad0, c1Next]

/-- A coinbase transaction used twice in the duplicate-hash chain. -/
def cbTx : Transaction := ⟨[⟨zeroSentinel, 0, ['b']⟩], [⟨50, ['m']⟩]⟩

/-- A transaction spending output 0 of `cbTx`. -/
def spendTx : Transaction := ⟨[⟨calculate_tx_hash cbTx, 0, ['s']⟩], [⟨60, ['n']⟩]⟩

/-- One block containing two copies of `cbTx` (equal hashes) plus a spend
of `(hash cbTx, 0)`. -/
def dupBlock : Block := ⟨⟨0, ['0'], [], 0, 0⟩, [cbTx, cbTx, spendTx]⟩

def dupChain : List Block := [dupBlock]

/-- A block whose `prev_hash` is `"x"`, failing linkage validation. -/
def c2Bad : Block := ⟨⟨0, ['x'], [], 0, 0⟩, []⟩

/-- A valid (difficulty 0) coinbase-only transaction for pool tests. -/
def c8Tx : Transaction := ⟨[⟨zeroSentinel, 0, ['r']⟩], [⟨50, ['w']⟩]⟩

/-- A valid difficulty-0 successor of the genesis block carrying `c8Tx`. -/
def c8Block : Block :=
  ⟨⟨7, Block.calculate_hash (genesisBlock 0), [], 0, 0⟩, [c8Tx]⟩

/-- A coinbase transaction paying 100 to `"bob"` (not the wallet). -/
def c10OtherTx : Transaction := ⟨[⟨zeroSentinel, 0, ['b']⟩], [⟨100, "bob".data⟩]⟩

def c10Block : Block := ⟨⟨1, ['0'], [], 0, 0⟩, [c10OtherTx]⟩

/-- A chain whose only spendable output is locked to `"bob"`. -/
def c10Chain : Blockchain := Blockchain.update_utxo_set ⟨[c10Block], [], 0⟩

/-- The transaction `create_transaction` produces for wallet `"alice"`:
it spends bob's output without owning it. -/
def c10Expected : Transaction :=
  ⟨[⟨calculate_tx_hash c10OtherTx, 0, "alice".data⟩],
   [⟨70, "carol".data⟩, ⟨30, "alice".data⟩]⟩

/-- A two-genesis local chain (longer than a one-block candidate). -/
def c1WitnessLocal : Blockchain := ⟨[genesisBlock 0, genesisBlock 0], [], 0⟩

end BlockchainRust

namespace BlockchainRust

/-! ## Helper lemmas -/

theorem mineAux_valid_or_exhausted (fuel : Nat) : ∀ (b : Block) (iterations : Nat),
    (mineAux fuel b iterations).1.is_valid = true ∨
    (mineAux fuel b iterations).2 = iterations + fuel := by
  induction fuel with
  | zero => intro b iterations; right; simp [mineAux]
  | succ f ih =>
    intro b iterations
    by_cases h : b.is_valid = true
    · left; simp [mineAux, h]
    · have h2 := ih (mineStep b) (iterations + 1)
      rcases h2 with h2 | h2
      · left; simpa [mineAux, h] using h2
      · right
        have hrw : mineAux (f + 1) b iterations = mineAux f (mineStep b) (iterations + 1) := by
          simp [mineAux, h]
        rw [hrw, h2]; omega

theorem mineAux_nonce (fuel : Nat) : ∀ (b : Block) (iterations : Nat),
    b.header.nonce + fuel < u64Mod →
    (mineAux fuel b iterations).1.header.nonce + iterations =
      b.header.nonce + (mineAux fuel b iterations).2 := by
  induction fuel with
  | zero => intro b iterations _; simp [mineAux]
  | succ f ih =>
    intro b iterations hlt
    by_cases h : b.is_valid = true
    · simp [mineAux, h]
    · have hmod : (b.header.nonce + 1) % u64Mod = b.header.nonce + 1 :=
        Nat.mod_eq_of_lt (by omega)
      have hstep : (mineStep b).header.nonce = b.header.nonce + 1 := by
        simp [mineStep, hmod]
      have h2 := ih (mineStep b) (iterations + 1) (by rw [hstep]; omega)
      have hrw : mineAux (f + 1) b iterations = mineAux f (mineStep b) (iterations + 1) := by
        simp [mineAux, h]
      rw [hrw]
      rw [hstep] at h2
      omega

/-! ## Claim C6 -/

/-- C6: the UTXO index is a pure function of the block sequence — chains
with equal block lists rebuild to equal indices, and rebuilding twice from
the same chain yields an identical index (idempotence). -/
theorem c6_utxo_pure_function (bc₁ bc₂ : Blockchain) :
    (bc₁.blocks = bc₂.blocks →
      (bc₁.rebuild_utxo_set).utxo_set = (bc₂.rebuild_utxo_set).utxo_set) ∧
    bc₁.rebuild_utxo_set.rebuild_utxo_set = bc₁.rebuild_utxo_set := by
  constructor
  · intro h
    simp [Blockchain.rebuild_utxo_set, Blockchain.update_utxo_set, h]
  · simp [Blockchain.rebuild_utxo_set, Blockchain.update_utxo_set]

theorem c6_utxo_pure_function_witness :
    (Blockchain.new 2).blocks = (Blockchain.new 2).blocks ∧
    ((Blockchain.new 2).rebuild_utxo_set).utxo_set =
      ((Blockchain.new 2).rebuild_utxo_set).utxo_set :=
  ⟨rfl, (c6_utxo_pure_function (Blockchain.new 2) (Blockchain.new 2)).1 rfl⟩

/-! ## Claim C7 -/

/-- C7: mining increments the nonce from its starting value (0 for a
freshly built block), always terminates, and on return the block either
satisfies the difficulty predicate or exactly 1,000,000 attempts were made;
the block hash is a pure function of the serialized contents. -/
theorem c7_mining_terminates (b b₁ b₂ : Block) (now : Int) (ph : List Char) (d : Nat) :
    ((Block.mine b).1.is_valid = true ∨ (Block.mine b).2 = 1000000) ∧
    (b.header.nonce = 0 → (Block.mine b).1.header.nonce = (Block.mine b).2) ∧
    (Block.new now ph d).header.nonce = 0 ∧
    (serializeBlock b₁ = serializeBlock b₂ → b₁.calculate_hash = b₂.calculate_hash) := by
  refine ⟨?_, ?_, rfl, ?_⟩
  · simpa [Block.mine, maxIterations] using mineAux_valid_or_exhausted 1000000 b 0
  · intro h0
    have h := mineAux_nonce 1000000 b 0 (by rw [h0]; norm_num [u64Mod])
    simp only [Block.mine, maxIterations] at *
    omega
  · intro h; simp [Block.calculate_hash, h]

theorem c7_mining_terminates_witness :
    (genesisBlock 0).header.nonce = 0 ∧
    serializeBlock (genesisBlock 0) = serializeBlock (genesisBlock 0) ∧
    (Block.mine (genesisBlock 0)).1.header.nonce = (Block.mine (genesisBlock 0)).2 ∧
    (genesisBlock 0).calculate_hash = (genesisBlock 0).calculate_hash :=
  ⟨rfl, rfl,
   (c7_mining_terminates (genesisBlock 0) (genesisBlock 0) (genesisBlock 0) 0 ['0'] 0).2.1 rfl,
   (c7_mining_terminates (genesisBlock 0) (genesisBlock 0) (genesisBlock 0) 0 ['0'] 0).2.2.2 rfl⟩

/-! ## Claim C2 -/

/-- C2: the NewBlock append path delegates to the validator — a valid
block is pushed and the UTXO index fully rebuilt; on a failed validation
the chain and UTXO index are unchanged, so an invalid block is never
pushed onto the block list. -/
theorem c2_append_delegates (bc : Blockchain) (pool : List Transaction) (b : Block) :
    (bc.validate_block b = true →
      (handleNewBlock bc pool b).chain.blocks = bc.blocks ++ [b] ∧
      (handleNewBlock bc pool b).chain.utxo_set = computeUtxo (bc.blocks ++ [b])) ∧
    (bc.validate_block b = false →
      (handleNewBlock bc pool b).chain = bc ∧
      (handleNewBlock bc pool b).chain.blocks = bc.blocks) := by
  constructor
  · intro h
    simp [handleNewBlock, h, Blockchain.add_received_block, Blockchain.update_utxo_set]
  · intro h
    simp [handleNewBlock, h]

theorem c2_append_delegates_witness :
    (Blockchain.new 0).validate_block c2Bad = false ∧
    (handleNewBlock (Blockchain.new 0) [] c2Bad).chain = Blockchain.new 0 :=
  ⟨by decide, ((c2_append_delegates (Blockchain.new 0) [] c2Bad).2 (by decide)).1⟩

/-! ## Claim C5 -/

/-- C5 (amended): for every non-empty inbound `SendBlocks` candidate the
handler completes with the sync guard reset to `false`; the empty
candidate instead returns early and leaves the guard untouched. -/
theorem c5_sync_guard_reset (bc : Blockchain) (pool : List Transaction) (sync : Bool)
    (blocks : List Block) :
    blocks ≠ [] → (handleSendBlocks bc pool sync blocks).sync_in_progress = false := by
  intro h
  simp only [handleSendBlocks, if_neg h]
  split
  · split <;> rfl
  · rfl

/-- C5 counterexample: on an empty candidate the handler returns early and
the sync guard is left `true`, not reset to `false` as the claim states. -/
theorem c5_sync_guard_counterexample :
    (handleSendBlocks (Blockchain.new 0) [] true []).sync_in_progress = true ∧
    ¬ ((handleSendBlocks (Blockchain.new 0) [] true []).sync_in_progress = false) := by
  refine ⟨rfl, fun h => ?_⟩
  have ht : (handleSendBlocks (Blockchain.new 0) [] true []).sync_in_progress = true := rfl
  rw [ht] at h
  exact Bool.noConfusion h

theorem c5_sync_guard_reset_witness :
    ([genesisBlock 0] ≠ ([] : List Block)) ∧
    (handleSendBlocks c1WitnessLocal [] true [genesisBlock 0]).sync_in_progress = false :=
  ⟨by decide, c5_sync_guard_reset c1WitnessLocal [] true [genesisBlock 0] (by decide)⟩

/-! ## Claim C9 -/

/-- C9 (amended): every construction yields the fixed genesis block —
`prev_hash = "0"`, the fixed timestamp, exactly one coinbase transaction
paying 100 to `genesis_address` — whose header also records the
construction's difficulty; two constructions with equal difficulty have
identical genesis blocks and hashes. -/
theorem c9_genesis_fixed (d d₁ d₂ : Nat) :
    (Blockchain.new d).blocks =
      [⟨⟨1748793600, ['0'], "genesis_merkle_root".data, 0, d⟩,
        [⟨[⟨zeroSentinel, 0, "Genesis Block - Blockchain Demo".data⟩],
          [⟨100, "genesis_address".data⟩]⟩]⟩] ∧
    (d₁ = d₂ →
      (Blockchain.new d₁).blocks.head? = (Blockchain.new d₂).blocks.head? ∧
      (Blockchain.new d₁).blocks.map Block.calculate_hash =
        (Blockchain.new d₂).blocks.map Block.calculate_hash) := by
  refine ⟨?_, fun h => by rw [h]; exact ⟨rfl, rfl⟩⟩
  simp [Blockchain.new, Blockchain.create_genesis_block, Blockchain.update_utxo_set,
    genesisBlock, genesisCoinbase]

/-- C9 counterexample: two independently constructed chains with different
difficulty parameters have different genesis blocks (the genesis header
stores the difficulty), refuting the claim for arbitrary constructions. -/
theorem c9_genesis_counterexample :
    (Blockchain.new 0).blocks.head? ≠ (Blockchain.new 1).blocks.head? := by decide

theorem c9_genesis_fixed_witness :
    (2 : Nat) = 2 ∧
    (Blockchain.new 2).blocks.head? = (Blockchain.new 2).blocks.head? ∧
    (Blockchain.new 2).blocks.map Block.calculate_hash =
      (Blockchain.new 2).blocks.map Block.calculate_hash :=
  ⟨rfl, ((c9_genesis_fixed 2 2 2).2 rfl).1, ((c9_genesis_fixed 2 2 2).2 rfl).2⟩

end BlockchainRust

namespace BlockchainRust

/-! ## Claim C3: validator characterization -/

theorem isPrefixOf_iff_take (l : List Char) : ∀ (s : List Char),
    l.isPrefixOf s = true ↔ s.take l.length = l := by
  induction l with
  | nil => intro s; simp [List.isPrefixOf]
  | cons a as ih =>
    intro s
    cases s with
    | nil => simp [List.isPrefixOf]
    | cons b bs =>
      simp only [List.isPrefixOf, List.length_cons, List.take_succ_cons,
        Bool.and_eq_true, beq_iff_eq, List.cons.injEq]
      constructor
      · rintro ⟨h1, h2⟩; exact ⟨h1.symm, (ih bs).mp h2⟩
      · rintro ⟨h1, h2⟩; exact ⟨h1.symm, (ih bs).mpr h2⟩

theorem is_valid_iff (b : Block) :
    b.is_valid = true ↔
      (b.calculate_hash).take b.header.difficulty =
        List.replicate b.header.difficulty '0' := by
  unfold Block.is_valid
  by_cases h : b.header.difficulty = 0
  · simp [h]
  · simp only [h, if_false]
    rw [isPrefixOf_iff_take, List.length_replicate]

theorem validate_transaction_iff (bc : Blockchain) (tx : Transaction) :
    bc.validate_transaction tx = true ↔
      ∀ inp ∈ tx.inputs, inp.prev_tx ≠ zeroSentinel →
        ∃ l, mapGet bc.utxo_set inp.prev_tx = some l ∧
          ∃ v, (inp.prev_index, v) ∈ l := by
  unfold Blockchain.validate_transaction
  rw [List.all_eq_true]
  constructor
  · intro h inp hin hne
    have hx := h inp hin
    rw [if_neg hne] at hx
    cases hg : mapGet bc.utxo_set inp.prev_tx with
    | none => rw [hg] at hx; exact absurd hx (by simp)
    | some l =>
      rw [hg, List.any_eq_true] at hx
      obtain ⟨q, hq, hdec⟩ := hx
      refine ⟨l, rfl, q.2, ?_⟩
      have : q.1 = inp.prev_index := of_decide_eq_true hdec
      rwa [← this]
  · intro h inp hin
    by_cases hne : inp.prev_tx = zeroSentinel
    · simp [hne]
    · obtain ⟨l, hl, v, hv⟩ := h inp hin hne
      rw [if_neg hne, hl, List.any_eq_true]
      exact ⟨(inp.prev_index, v), hv, by simp⟩

/-- C3: `validate_block` returns true iff (a) the first `difficulty` hex
characters of the block's hash are all `'0'` (difficulty 0 accepts any
hash), (b) `prev_hash` equals the hash of the chain tip, or `"0"` when the
chain is empty, and (c) every transaction passes `validate_transaction`:
each non-coinbase input references a present UTXO entry at the stated
index, sentinel inputs bypassing the check. -/
theorem c3_validate_block_iff (bc : Blockchain) (b : Block) :
    bc.validate_block b = true ↔
      ((b.calculate_hash).take b.header.difficulty =
         List.replicate b.header.difficulty '0' ∧
       b.header.prev_hash =
         (match bc.blocks.getLast? with
          | some p => p.calculate_hash
          | none => ['0']) ∧
       ∀ tx ∈ b.transactions, ∀ inp ∈ tx.inputs, inp.prev_tx ≠ zeroSentinel →
         ∃ l, mapGet bc.utxo_set inp.prev_tx = some l ∧
           ∃ v, (inp.prev_index, v) ∈ l) := by
  unfold Blockchain.validate_block
  by_cases hb : b.is_valid = true
  · have hv := (is_valid_iff b).mp hb
    cases hg : bc.blocks.getLast? with
    | some p =>
      by_cases hp : b.header.prev_hash = p.calculate_hash
      · simp only [hb, hg, hp, List.all_eq_true, not_true_eq_false, if_false,
          ne_eq, not_false_eq_true]
        simp only [hv, true_and]
        constructor
        · intro h tx htx
          exact (validate_transaction_iff bc tx).mp (h tx htx)
        · intro h tx htx
          exact (validate_transaction_iff bc tx).mpr (h tx htx)
      · simp [hb, hg, hp]
    | none =>
      by_cases hp : b.header.prev_hash = ['0']
      · simp only [hb, hg, hp, List.all_eq_true, not_true_eq_false, if_false,
          ne_eq, not_false_eq_true]
        simp only [hv, true_and]
        constructor
        · intro h tx htx
          exact (validate_transaction_iff bc tx).mp (h tx htx)
        · intro h tx htx
          exact (validate_transaction_iff bc tx).mpr (h tx htx)
      · simp [hb, hg, hp]
  · have hv : ¬ ((b.calculate_hash).take b.header.difficulty =
        List.replicate b.header.difficulty '0') :=
      fun hc => hb ((is_valid_iff b).mpr hc)
    simp [hb, hv]

theorem c3_validate_block_iff_witness :
    (Blockchain.mk [] [] 0).validate_block (genesisBlock 0) = true ∧
    ((genesisBlock 0).calculate_hash).take (genesisBlock 0).header.difficulty =
      List.replicate (genesisBlock 0).header.difficulty '0' :=
  ⟨by decide,
   ((c3_validate_block_iff ⟨[], [], 0⟩ (genesisBlock 0)).mp (by decide)).1⟩

end BlockchainRust

namespace BlockchainRust

/-! ## Claim C1: fork rule of the SendBlocks handler -/

theorem segValid_iff : ∀ (l : List Block) (temp : Blockchain),
    validateCandidateAux temp false l = true ↔ chainSegValid temp l := by
  intro l
  induction l with
  | nil => intro temp; simp [validateCandidateAux, chainSegValid]
  | cons b rest ih =>
    intro temp
    by_cases hv : temp.validate_block b = true
    · simp [validateCandidateAux, chainSegValid, hv, ih]
    · simp [validateCandidateAux, chainSegValid, hv]

theorem validateCandidate_cons (d : Nat) (c0 : Block) (rest : List Block) :
    validateCandidate d (c0 :: rest) =
      if c0.header.prev_hash ≠ ['0'] then false
      else validateCandidateAux (c1Seed d c0) false rest := rfl

/-- C1 (amended): chain replacement via the SendBlocks handler succeeds
iff the candidate is non-empty, strictly longer than the local chain, its
first block merely has `prev_hash = "0"` (its proof-of-work and
transactions are NOT re-checked), and every later block fully validates
against the growing disposable verification chain; on success the local
block list becomes the candidate, in every other case (including the
empty candidate) it is unchanged. -/
theorem c1_fork_rule (bc : Blockchain) (pool : List Transaction) (sync : Bool)
    (c0 : Block) (rest : List Block) :
    ((handleSendBlocks bc pool sync (c0 :: rest)).replaced = true ↔
      ((c0 :: rest).length > bc.blocks.length ∧ c0.header.prev_hash = ['0'] ∧
       chainSegValid (c1Seed bc.difficulty c0) rest)) ∧
    ((handleSendBlocks bc pool sync (c0 :: rest)).replaced = true →
      (handleSendBlocks bc pool sync (c0 :: rest)).chain.blocks = c0 :: rest) ∧
    ((handleSendBlocks bc pool sync (c0 :: rest)).replaced = false →
      (handleSendBlocks bc pool sync (c0 :: rest)).chain.blocks = bc.blocks ∧
      (handleSendBlocks bc pool sync (c0 :: rest)).chain.utxo_set = bc.utxo_set) ∧
    (handleSendBlocks bc pool sync ([] : List Block)).replaced = false ∧
    (handleSendBlocks bc pool sync ([] : List Block)).chain = bc := by
  have hne : (c0 :: rest : List Block) ≠ [] := by simp
  have hchar : validateCandidate bc.difficulty (c0 :: rest) = true ↔
      (c0.header.prev_hash = ['0'] ∧ chainSegValid (c1Seed bc.difficulty c0) rest) := by
    rw [validateCandidate_cons]
    by_cases hp : c0.header.prev_hash = ['0']
    · simp [hp, segValid_iff]
    · simp [hp]
  refine ⟨?_, ?_, ?_, by simp [handleSendBlocks], by simp [handleSendBlocks]⟩
  · unfold handleSendBlocks
    rw [if_neg hne]
    by_cases hlen : (c0 :: rest).length > bc.blocks.length
    · rw [if_pos hlen]
      by_cases hval : validateCandidate bc.difficulty (c0 :: rest) = true
      · rw [if_pos hval]
        exact ⟨fun _ => ⟨hlen, hchar.mp hval⟩, fun _ => rfl⟩
      · rw [if_neg hval]
        rw [hchar] at hval
        constructor
        · intro h
          exact absurd h (by simp)
        · rintro ⟨-, h2, h3⟩
          exact absurd ⟨h2, h3⟩ hval
    · rw [if_neg hlen]
      constructor
      · intro h
        exact absurd h (by simp)
      · rintro ⟨h, -⟩
        exact absurd h hlen
  · unfold handleSendBlocks
    rw [if_neg hne]
    by_cases hlen : (c0 :: rest).length > bc.blocks.length
    · rw [if_pos hlen]
      by_cases hval : validateCandidate bc.difficulty (c0 :: rest) = true
      · rw [if_pos hval]
        intro
        simp [Blockchain.replace_chain, Blockchain.rebuild_utxo_set,
          Blockchain.update_utxo_set]
      · rw [if_neg hval]
        intro h
        simp at h
    · rw [if_neg hlen]
      intro h
      simp at h
  · unfold handleSendBlocks
    rw [if_neg hne]
    by_cases hlen : (c0 :: rest).length > bc.blocks.length
    · rw [if_pos hlen]
      by_cases hval : validateCandidate bc.difficulty (c0 :: rest) = true
      · rw [if_pos hval]
        intro h
        simp at h
      · rw [if_neg hval]
        intro
        exact ⟨rfl, rfl⟩
    · rw [if_neg hlen]
      intro
      exact ⟨rfl, rfl⟩

/-- C1 counterexample: the handler accepts (and installs) a strictly
longer candidate whose block 0 does NOT re-validate — `c1Bad0` carries a
transaction whose input references a nonexistent UTXO, yet only its
`prev_hash` is checked — refuting the claimed "iff" with full re-validation
of every block including index 0. -/
theorem c1_fork_rule_counterexample :
    (handleSendBlocks c1Local [] true c1Cand).replaced = true ∧
    c1Cand.length > c1Local.blocks.length ∧
    specRevalidates c1Local.difficulty c1Cand = false ∧
    ¬ ((handleSendBlocks c1Local [] true c1Cand).replaced = true ↔
       (c1Cand.length > c1Local.blocks.length ∧
        specRevalidates c1Local.difficulty c1Cand = true)) := by
  have h1 : (handleSendBlocks c1Local [] true c1Cand).replaced = true := by decide
  have h3 : specRevalidates c1Local.difficulty c1Cand = false := by decide
  refine ⟨h1, by decide, h3, fun hiff => ?_⟩
  have h2 := (hiff.mp h1).2
  rw [h3] at h2
  exact Bool.noConfusion h2

theorem c1_fork_rule_witness :
    (handleSendBlocks c1WitnessLocal [] true [genesisBlock 0]).replaced = false ∧
    (handleSendBlocks c1WitnessLocal [] true [genesisBlock 0]).chain.blocks =
      c1WitnessLocal.blocks ∧
    (handleSendBlocks c1WitnessLocal [] true [genesisBlock 0]).chain.utxo_set =
      c1WitnessLocal.utxo_set :=
  ⟨by decide,
   ((c1_fork_rule c1WitnessLocal [] true (genesisBlock 0) []).2.2.1 (by decide)).1,
   ((c1_fork_rule c1WitnessLocal [] true (genesisBlock 0) []).2.2.1 (by decide)).2⟩

end BlockchainRust

namespace BlockchainRust

/-! ## Claim C4: conservation — pass-1 characterization -/

theorem keysOf_cons (k : List Char) (l : List (Nat × Nat)) (m : UtxoMap) :
    keysOf ((k, l) :: m) = k :: keysOf m := rfl

theorem upsertPush_absent (k : List Char) (p : Nat × Nat) :
    ∀ (m : UtxoMap), k ∉ keysOf m → upsertPush m k p = m ++ [(k, [p])] := by
  intro m
  induction m with
  | nil => intro _; rfl
  | cons e rest ih =>
    obtain ⟨k', l⟩ := e
    intro h
    rw [keysOf_cons, List.mem_cons] at h
    push_neg at h
    have hne : ¬ k' = k := fun hh => h.1 hh.symm
    simp [upsertPush, hne, ih h.2]

theorem upsertPush_last (k : List Char) (l : List (Nat × Nat)) (p : Nat × Nat) :
    ∀ (m : UtxoMap), k ∉ keysOf m →
    upsertPush (m ++ [(k, l)]) k p = m ++ [(k, l ++ [p])] := by
  intro m
  induction m with
  | nil => simp [upsertPush]
  | cons e rest ih =>
    obtain ⟨k', l'⟩ := e
    intro h
    rw [keysOf_cons, List.mem_cons] at h
    push_neg at h
    have hne : ¬ k' = k := fun hh => h.1 hh.symm
    simp only [List.cons_append]
    simp [upsertPush, hne, ih h.2]

theorem foldPush_last (k : List Char) : ∀ (ps : List (Nat × Nat)) (m : UtxoMap)
    (l : List (Nat × Nat)), k ∉ keysOf m →
    ps.foldl (fun m p => upsertPush m k p) (m ++ [(k, l)]) = m ++ [(k, l ++ ps)] := by
  intro ps
  induction ps with
  | nil => intro m l _; simp
  | cons p ps ih =>
    intro m l h
    rw [List.foldl_cons, upsertPush_last k l p m h, ih m (l ++ [p]) h]
    simp

theorem insertTxOutputs_absent (m : UtxoMap) (t : Transaction)
    (h : calculate_tx_hash t ∉ keysOf m) :
    insertTxOutputs m t =
      if outPairs t = [] then m else m ++ [(calculate_tx_hash t, outPairs t)] := by
  unfold insertTxOutputs
  cases hp : outPairs t with
  | nil => simp
  | cons p ps =>
    rw [if_neg (by simp)]
    rw [List.foldl_cons, upsertPush_absent _ p m h]
    have := foldPush_last (calculate_tx_hash t) ps m [p] h
    rw [this]
    simp

theorem entryFor_nil (t : Transaction) : entryFor [] t = outPairs t := by
  simp [entryFor]

theorem mState_nil_S_cons (t : Transaction) (ts : List Transaction) :
    mState (t :: ts) [] =
      (if outPairs t = [] then mState ts []
       else (calculate_tx_hash t, outPairs t) :: mState ts []) := by
  by_cases hp : outPairs t = []
  · simp [mState, entryFor_nil, hp]
  · simp [mState, entryFor_nil, hp]

theorem pass1_char : ∀ (txs : List Transaction) (m : UtxoMap),
    (txs.map calculate_tx_hash).Nodup →
    (∀ t ∈ txs, calculate_tx_hash t ∉ keysOf m) →
    txs.foldl insertTxOutputs m = m ++ mState txs [] := by
  intro txs
  induction txs with
  | nil => intro m _ _; simp [mState]
  | cons t ts ih =>
    intro m hnd hk
    rw [List.map_cons, List.nodup_cons] at hnd
    obtain ⟨hmem, htail⟩ := hnd
    rw [List.foldl_cons, insertTxOutputs_absent m t (hk t (by simp))]
    rw [mState_nil_S_cons]
    by_cases hp : outPairs t = []
    · rw [if_pos hp, if_pos hp]
      exact ih m htail (fun t' ht' => hk t' (by simp [ht']))
    · rw [if_neg hp, if_neg hp]
      have hk' : ∀ t' ∈ ts,
          calculate_tx_hash t' ∉ keysOf (m ++ [(calculate_tx_hash t, outPairs t)]) := by
        intro t' ht'
        have h1 : calculate_tx_hash t' ∉ keysOf m := hk t' (by simp [ht'])
        have h2 : calculate_tx_hash t' ≠ calculate_tx_hash t := by
          intro heq
          exact hmem (heq ▸ List.mem_map_of_mem calculate_tx_hash ht')
        simp [keysOf, List.mem_append]
        exact ⟨by simpa [keysOf] using h1, h2⟩
      rw [ih (m ++ [(calculate_tx_hash t, outPairs t)]) htail hk']
      rw [List.append_assoc]
      rfl

end BlockchainRust

namespace BlockchainRust

/-! ## Claim C4: pass-2 characterization -/

theorem removeIdx_absent (k : List Char) (i : Nat) :
    ∀ (m : UtxoMap), k ∉ keysOf m → removeIdx m k i = m := by
  intro m
  induction m with
  | nil => intro _; rfl
  | cons e rest ih =>
    obtain ⟨k', l⟩ := e
    intro h
    rw [keysOf_cons, List.mem_cons] at h
    push_neg at h
    have hne : ¬ k' = k := fun hh => h.1 hh.symm
    simp [removeIdx, hne, ih h.2]

theorem keysOf_mState_sub (S : List (List Char × Nat)) :
    ∀ (ts : List Transaction), ∀ k ∈ keysOf (mState ts S),
      k ∈ ts.map calculate_tx_hash := by
  intro ts
  induction ts with
  | nil => intro k hk; simp [mState, keysOf] at hk
  | cons t ts ih =>
    intro k hk
    by_cases he : entryFor S t = []
    · have : mState (t :: ts) S = mState ts S := by simp [mState, he]
      rw [this] at hk
      simp [ih k hk]
    · have : mState (t :: ts) S =
          (calculate_tx_hash t, entryFor S t) :: mState ts S := by
        simp [mState, he]
      rw [this, keysOf_cons, List.mem_cons] at hk
      rcases hk with hk | hk
      · simp [hk]
      · simp [ih k hk]

theorem entryFor_snoc_ne (S : List (List Char × Nat)) (r : List Char × Nat)
    (t : Transaction) (h : calculate_tx_hash t ≠ r.1) :
    entryFor (S ++ [r]) t = entryFor S t := by
  unfold entryFor
  apply List.filter_congr
  intro p _
  rw [decide_eq_decide]
  rw [List.mem_append, List.mem_singleton]
  constructor
  · intro hx hin
    exact hx (Or.inl hin)
  · intro hx hin
    rcases hin with hin | hin
    · exact hx hin
    · exact h (congrArg Prod.fst hin)

theorem mState_snoc_ne (S : List (List Char × Nat)) (r : List Char × Nat) :
    ∀ (ts : List Transaction), (∀ t ∈ ts, calculate_tx_hash t ≠ r.1) →
    mState ts (S ++ [r]) = mState ts S := by
  intro ts h
  unfold mState
  have hmap : ts.map (fun t => (calculate_tx_hash t, entryFor (S ++ [r]) t)) =
      ts.map (fun t => (calculate_tx_hash t, entryFor S t)) := by
    apply List.map_congr_left
    intro t ht
    rw [entryFor_snoc_ne S r t (h t ht)]
  rw [hmap]

theorem filter_comp_entry (S : List (List Char × Nat)) (r : List Char × Nat)
    (t : Transaction) (h : calculate_tx_hash t = r.1) :
    (entryFor S t).filter (fun q => decide (q.1 ≠ r.2)) = entryFor (S ++ [r]) t := by
  unfold entryFor
  rw [List.filter_filter]
  apply List.filter_congr
  intro p _
  obtain ⟨r1, r2⟩ := r
  simp only at h
  rw [show (decide (p.1 ≠ r2) && decide ((calculate_tx_hash t, p.1) ∉ S)) =
      decide (p.1 ≠ r2 ∧ (calculate_tx_hash t, p.1) ∉ S) from by
    by_cases h1 : p.1 = r2 <;> by_cases h2 : (calculate_tx_hash t, p.1) ∈ S <;>
      simp [h1, h2]]
  rw [decide_eq_decide]
  rw [List.mem_append, List.mem_singleton]
  constructor
  · rintro ⟨h1, h2⟩ hin
    rcases hin with hin | hin
    · exact h2 hin
    · exact h1 (by rw [Prod.ext_iff] at hin; exact hin.2)
  · intro hx
    constructor
    · intro hpe
      exact hx (Or.inr (by rw [Prod.ext_iff]; exact ⟨h, hpe⟩))
    · intro hin
      exact hx (Or.inl hin)

theorem removeIdx_cons_eq (k' k : List Char) (l : List (Nat × Nat)) (rest : UtxoMap)
    (i : Nat) (h : k' = k) :
    removeIdx ((k', l) :: rest) k i =
      (if l.filter (fun q => decide (q.1 ≠ i)) = [] then rest
       else (k', l.filter (fun q => decide (q.1 ≠ i))) :: rest) := by
  subst h
  simp [removeIdx]

theorem removeIdx_cons_ne (k' k : List Char) (l : List (Nat × Nat)) (rest : UtxoMap)
    (i : Nat) (h : ¬ k' = k) :
    removeIdx ((k', l) :: rest) k i = (k', l) :: removeIdx rest k i := by
  simp [removeIdx, h]

theorem removeIdx_mState (r : List Char × Nat) :
    ∀ (ts : List Transaction) (S : List (List Char × Nat)),
    (ts.map calculate_tx_hash).Nodup →
    removeIdx (mState ts S) r.1 r.2 = mState ts (S ++ [r]) := by
  intro ts
  induction ts with
  | nil => intro S _; simp [mState, removeIdx]
  | cons t ts ih =>
    intro S hnd
    rw [List.map_cons, List.nodup_cons] at hnd
    obtain ⟨hmem, htail⟩ := hnd
    by_cases hc : calculate_tx_hash t = r.1
    · have htns : ∀ t' ∈ ts, calculate_tx_hash t' ≠ r.1 := by
        intro t' ht' heq
        apply hmem
        rw [show calculate_tx_hash t = calculate_tx_hash t' from by rw [hc, heq]]
        exact List.mem_map_of_mem _ ht'
      by_cases he : entryFor S t = []
      · have hms : mState (t :: ts) S = mState ts S := by simp [mState, he]
        have he' : entryFor (S ++ [r]) t = [] := by
          rw [← filter_comp_entry S r t hc, he]
          rfl
        have hms' : mState (t :: ts) (S ++ [r]) = mState ts (S ++ [r]) := by
          simp [mState, he']
        have hkey : r.1 ∉ keysOf (mState ts S) := by
          intro hk
          obtain ⟨t', ht', heq⟩ := List.mem_map.mp (keysOf_mState_sub S ts r.1 hk)
          exact htns t' ht' heq
        rw [hms, hms', removeIdx_absent r.1 r.2 _ hkey,
          mState_snoc_ne S r ts htns]
      · have hms : mState (t :: ts) S =
            (calculate_tx_hash t, entryFor S t) :: mState ts S := by
          simp [mState, he]
        have hl' : (entryFor S t).filter (fun q => decide (q.1 ≠ r.2)) =
            entryFor (S ++ [r]) t := filter_comp_entry S r t hc
        rw [hms, removeIdx_cons_eq _ _ _ _ _ hc, hl']
        by_cases hz : entryFor (S ++ [r]) t = []
        · rw [if_pos hz]
          have hms' : mState (t :: ts) (S ++ [r]) = mState ts (S ++ [r]) := by
            simp [mState, hz]
          rw [hms', mState_snoc_ne S r ts htns]
        · rw [if_neg hz]
          have hms' : mState (t :: ts) (S ++ [r]) =
              (calculate_tx_hash t, entryFor (S ++ [r]) t) :: mState ts (S ++ [r]) := by
            simp [mState, hz]
          rw [hms', mState_snoc_ne S r ts htns]
    · have hent : entryFor (S ++ [r]) t = entryFor S t := entryFor_snoc_ne S r t hc
      by_cases he : entryFor S t = []
      · have hms : mState (t :: ts) S = mState ts S := by simp [mState, he]
        have hms' : mState (t :: ts) (S ++ [r]) = mState ts (S ++ [r]) := by
          simp [mState, hent, he]
        rw [hms, hms', ih S htail]
      · have hms : mState (t :: ts) S =
            (calculate_tx_hash t, entryFor S t) :: mState ts S := by
          simp [mState, he]
        have hms' : mState (t :: ts) (S ++ [r]) =
            (calculate_tx_hash t, entryFor S t) :: mState ts (S ++ [r]) := by
          simp [mState, hent, he]
        rw [hms, hms', removeIdx_cons_ne _ _ _ _ _ hc, ih S htail]

theorem applyRefs_mState : ∀ (refs : List (List Char × Nat))
    (ts : List Transaction) (S : List (List Char × Nat)),
    (ts.map calculate_tx_hash).Nodup →
    applyRefs (mState ts S) refs = mState ts (S ++ refs) := by
  intro refs
  induction refs with
  | nil => intro ts S _; simp [applyRefs]
  | cons r rs ih =>
    intro ts S hnd
    have h1 : applyRefs (mState ts S) (r :: rs) =
        applyRefs (removeIdx (mState ts S) r.1 r.2) rs := rfl
    rw [h1, removeIdx_mState r ts S hnd, ih ts (S ++ [r]) hnd]
    simp

end BlockchainRust

namespace BlockchainRust

/-! ## Claim C4: flattening the two passes -/

theorem txsOf_cons (b : Block) (bs : List Block) :
    txsOf (b :: bs) = b.transactions ++ txsOf bs := rfl

theorem inputsOf_cons (t : Transaction) (ts : List Transaction) :
    inputsOf (t :: ts) = t.inputs ++ inputsOf ts := rfl

theorem inputsOf_append : ∀ (l₁ l₂ : List Transaction),
    inputsOf (l₁ ++ l₂) = inputsOf l₁ ++ inputsOf l₂ := by
  intro l₁ l₂
  induction l₁ with
  | nil => rfl
  | cons t ts ih => simp [inputsOf_cons, ih]

theorem nonCoinbase_cons (i : TxInput) (l : List TxInput) :
    nonCoinbase (i :: l) =
      (if i.prev_tx = zeroSentinel then nonCoinbase l else i :: nonCoinbase l) := by
  by_cases h : i.prev_tx = zeroSentinel
  · simp [nonCoinbase, List.filter, h]
  · simp [nonCoinbase, List.filter, h]

theorem nonCoinbase_append (l₁ l₂ : List TxInput) :
    nonCoinbase (l₁ ++ l₂) = nonCoinbase l₁ ++ nonCoinbase l₂ := by
  simp [nonCoinbase, List.filter_append]

theorem applyRefs_append (m : UtxoMap) (a b : List (List Char × Nat)) :
    applyRefs m (a ++ b) = applyRefs (applyRefs m a) b := by
  simp [applyRefs, List.foldl_append]

theorem pass1_eq_foldTxs : ∀ (blocks : List Block) (m : UtxoMap),
    pass1 m blocks = (txsOf blocks).foldl insertTxOutputs m := by
  intro blocks
  induction blocks with
  | nil => intro m; rfl
  | cons b bs ih =>
    intro m
    rw [txsOf_cons, List.foldl_append]
    exact ih _

theorem spendFold_eq_applyRefs : ∀ (l : List TxInput) (m : UtxoMap),
    l.foldl spendInput m = applyRefs m ((nonCoinbase l).map refOf) := by
  intro l
  induction l with
  | nil => intro m; rfl
  | cons i l ih =>
    intro m
    rw [List.foldl_cons, nonCoinbase_cons]
    by_cases h : i.prev_tx = zeroSentinel
    · rw [if_pos h]
      have : spendInput m i = m := by simp [spendInput, h]
      rw [this, ih]
    · rw [if_neg h]
      have : spendInput m i = removeIdx m i.prev_tx i.prev_index := by
        simp [spendInput, h]
      rw [this, List.map_cons, ih]
      rfl

theorem txFold_eq_applyRefs : ∀ (ts : List Transaction) (m : UtxoMap),
    ts.foldl (fun m t => t.inputs.foldl spendInput m) m =
      applyRefs m ((nonCoinbase (inputsOf ts)).map refOf) := by
  intro ts
  induction ts with
  | nil => intro m; rfl
  | cons t ts ih =>
    intro m
    rw [List.foldl_cons, spendFold_eq_applyRefs, ih, inputsOf_cons,
      nonCoinbase_append, List.map_append, applyRefs_append]

theorem pass2_eq_applyRefs : ∀ (blocks : List Block) (m : UtxoMap),
    pass2 m blocks = applyRefs m ((nonCoinbase (inputsOf (txsOf blocks))).map refOf) := by
  intro blocks
  induction blocks with
  | nil => intro m; rfl
  | cons b bs ih =>
    intro m
    have h1 : pass2 m (b :: bs) =
        pass2 (b.transactions.foldl (fun m t => t.inputs.foldl spendInput m) m) bs := rfl
    rw [h1, ih, txFold_eq_applyRefs, txsOf_cons, inputsOf_append,
      nonCoinbase_append, List.map_append, applyRefs_append]

theorem computeUtxo_char (blocks : List Block)
    (hnd : ((txsOf blocks).map calculate_tx_hash).Nodup) :
    computeUtxo blocks =
      mState (txsOf blocks) ((nonCoinbase (inputsOf (txsOf blocks))).map refOf) := by
  unfold computeUtxo
  rw [pass2_eq_applyRefs, pass1_eq_foldTxs,
    pass1_char (txsOf blocks) [] hnd (by simp [keysOf]),
    List.nil_append,
    show applyRefs (mState (txsOf blocks) [])
        ((nonCoinbase (inputsOf (txsOf blocks))).map refOf) =
      mState (txsOf blocks)
        ([] ++ (nonCoinbase (inputsOf (txsOf blocks))).map refOf) from
      applyRefs_mState _ _ _ hnd,
    List.nil_append]
  unfold mState
  rw [List.filter_filter]
  apply List.filter_congr
  intro e _
  simp

end BlockchainRust

namespace BlockchainRust

/-! ## Claim C4: value counting -/

theorem utxoValues_cons (e : List Char × List (Nat × Nat)) (m : UtxoMap) :
    utxoValues (e :: m) = e.2.map Prod.snd ++ utxoValues m := rfl

theorem sumValuesList_cons (t : Transaction) (ts : List Transaction)
    (S : List (List Char × Nat)) :
    sumValuesList (t :: ts) S = (entryFor S t).map Prod.snd ++ sumValuesList ts S := rfl

theorem sumConsumed_cons (t : Transaction) (ts : List Transaction)
    (S : List (List Char × Nat)) :
    sumConsumed (t :: ts) S = consumedFor S t ++ sumConsumed ts S := rfl

theorem createdOf_cons (t : Transaction) (ts : List Transaction) :
    createdOf (t :: ts) = t.outputs.map TxOutput.value ++ createdOf ts := rfl

theorem utxoValues_mState : ∀ (ts : List Transaction) (S : List (List Char × Nat)),
    utxoValues (mState ts S) = sumValuesList ts S := by
  intro ts
  induction ts with
  | nil => intro S; rfl
  | cons t ts ih =>
    intro S
    by_cases he : entryFor S t = []
    · have hm : mState (t :: ts) S = mState ts S := by simp [mState, he]
      rw [hm, ih, sumValuesList_cons, he]
      rfl
    · have hm : mState (t :: ts) S =
          (calculate_tx_hash t, entryFor S t) :: mState ts S := by simp [mState, he]
      rw [hm, utxoValues_cons, ih, sumValuesList_cons]

theorem outPairsAux_values : ∀ (l : List TxOutput) (i : Nat),
    (outPairsAux i l).map Prod.snd = l.map TxOutput.value := by
  intro l
  induction l with
  | nil => intro i; rfl
  | cons o l ih => intro i; simp [outPairsAux, ih]

theorem entry_partition (S : List (List Char × Nat)) (t : Transaction) :
    (↑((entryFor S t).map Prod.snd) : Multiset ℕ) + ↑(consumedFor S t) =
      (↑((outPairs t).map Prod.snd) : Multiset ℕ) := by
  have hent : entryFor S t =
      (outPairs t).filter (fun p => !decide ((calculate_tx_hash t, p.1) ∈ S)) := by
    unfold entryFor
    apply List.filter_congr
    intro p _
    rw [decide_not]
  have hperm : ((entryFor S t) ++
      (outPairs t).filter (fun p => decide ((calculate_tx_hash t, p.1) ∈ S))).Perm
      (outPairs t) := by
    rw [hent]
    exact List.perm_append_comm.trans (List.filter_append_perm _ _)
  rw [Multiset.coe_add]
  have hm : (entryFor S t).map Prod.snd ++ consumedFor S t =
      ((entryFor S t) ++
        (outPairs t).filter (fun p => decide ((calculate_tx_hash t, p.1) ∈ S))).map
        Prod.snd := by
    rw [List.map_append]
    rfl
  rw [hm]
  exact Multiset.coe_eq_coe.mpr (hperm.map Prod.snd)

theorem values_partition : ∀ (ts : List Transaction) (S : List (List Char × Nat)),
    (↑(sumValuesList ts S) : Multiset ℕ) + ↑(sumConsumed ts S) = ↑(createdOf ts) := by
  intro ts
  induction ts with
  | nil => intro S; rfl
  | cons t ts ih =>
    intro S
    rw [sumValuesList_cons, sumConsumed_cons, createdOf_cons,
      ← Multiset.coe_add, ← Multiset.coe_add, ← Multiset.coe_add]
    have h1 : ((↑((entryFor S t).map Prod.snd) : Multiset ℕ) + ↑(sumValuesList ts S)) +
        ((↑(consumedFor S t) : Multiset ℕ) + ↑(sumConsumed ts S)) =
        ((↑((entryFor S t).map Prod.snd) : Multiset ℕ) + ↑(consumedFor S t)) +
        ((↑(sumValuesList ts S) : Multiset ℕ) + ↑(sumConsumed ts S)) := by
      abel
    rw [h1, entry_partition S t, ih S]
    have h2 : (outPairs t).map Prod.snd = t.outputs.map TxOutput.value :=
      outPairsAux_values t.outputs 0
    rw [h2]

end BlockchainRust


namespace BlockchainRust

/-! ## Claim C4: reindexing the consumed multiset -/

theorem filter_or_perm {α : Type} : ∀ (l : List α) (pb qb : α → Bool),
    (∀ x ∈ l, ¬(pb x = true ∧ qb x = true)) →
    (l.filter (fun x => pb x || qb x)).Perm (l.filter pb ++ l.filter qb) := by
  intro l pb qb
  induction l with
  | nil => intro _; simp
  | cons x l ih =>
    intro hd
    have htail := fun y hy => hd y (List.mem_cons_of_mem x hy)
    by_cases hp : pb x = true
    · have hq : ¬ qb x = true := fun hq => hd x (List.mem_cons_self x l) ⟨hp, hq⟩
      simp only [List.filter_cons, hp, hq, Bool.true_or, if_true]
      simp only [Bool.false_eq_true, if_false]
      exact (ih htail).cons x
    · by_cases hq : qb x = true
      · simp only [List.filter_cons, hp, hq, Bool.or_true, if_true]
        simp only [Bool.false_eq_true, if_false]
        exact ((ih htail).cons x).trans List.perm_middle.symm
      · simp only [List.filter_cons, hp, hq]
        simp only [Bool.or_self, Bool.false_eq_true, if_false]
        exact ih htail

theorem outPairs_filter_eq : ∀ (l : List TxOutput) (i j : Nat),
    (outPairsAux i l).filter (fun p => decide (p.1 = j)) =
      (if j < i then [] else ((l.get? (j - i)).map (fun o => (j, o.value))).toList) := by
  intro l
  induction l with
  | nil =>
    intro i j
    by_cases hj : j < i <;> simp [outPairsAux, hj]
  | cons o l ih =>
    intro i j
    show ((i, o.value) :: outPairsAux (i + 1) l).filter (fun p => decide (p.1 = j)) = _
    rcases Nat.lt_trichotomy j i with hj | hj | hj
    · have h1 : ¬ i = j := by omega
      have h2 : j < i + 1 := by omega
      rw [if_pos hj]
      have hrec := ih (i + 1) j
      rw [if_pos h2] at hrec
      simp only [List.filter_cons, h1, decide_eq_true_eq, if_false, hrec]
    · subst hj
      rw [if_neg (by omega)]
      have hrec := ih (j + 1) j
      rw [if_pos (by omega)] at hrec
      simp only [List.filter_cons, decide_eq_true_eq, if_true, hrec]
      simp [Nat.sub_self]
    · have h1 : ¬ i = j := by omega
      have h2 : ¬ j < i + 1 := by omega
      have h3 : ¬ j < i := by omega
      rw [if_neg h3]
      have hrec := ih (i + 1) j
      rw [if_neg h2] at hrec
      simp only [List.filter_cons, h1, decide_eq_true_eq, if_false, hrec]
      have h4 : j - i = (j - (i + 1)) + 1 := by omega
      rw [h4]
      rfl

theorem filter_single_values (t : Transaction) (j : Nat) :
    ((outPairs t).filter (fun p => decide (p.1 = j))).map Prod.snd =
      ((t.outputs.get? j).map TxOutput.value).toList := by
  unfold outPairs
  rw [outPairs_filter_eq t.outputs 0 j, if_neg (by omega)]
  rcases h : t.outputs.get? (j - 0) with _ | o
  · rw [show t.outputs.get? j = none from by simpa using h]
    rfl
  · rw [show t.outputs.get? j = some o from by simpa using h]
    rfl

theorem consumedFor_cons_ne (r : List Char × Nat) (rs : List (List Char × Nat))
    (t : Transaction) (h : calculate_tx_hash t ≠ r.1) :
    consumedFor (r :: rs) t = consumedFor rs t := by
  unfold consumedFor
  congr 1
  apply List.filter_congr
  intro p _
  rw [decide_eq_decide, List.mem_cons]
  constructor
  · rintro (heq | hin)
    · exact absurd (congrArg Prod.fst heq) h
    · exact hin
  · exact Or.inr

theorem sumConsumed_cons_ne (r : List Char × Nat) :
    ∀ (ts : List Transaction) (rs : List (List Char × Nat)),
    (∀ t ∈ ts, calculate_tx_hash t ≠ r.1) →
    sumConsumed ts (r :: rs) = sumConsumed ts rs := by
  intro ts
  induction ts with
  | nil => intro rs _; rfl
  | cons t ts ih =>
    intro rs h
    rw [sumConsumed_cons, sumConsumed_cons,
      consumedFor_cons_ne r rs t (h t (by simp)),
      ih rs (fun t' ht' => h t' (by simp [ht']))]

theorem sumConsumed_nil : ∀ (ts : List Transaction), sumConsumed ts [] = [] := by
  intro ts
  induction ts with
  | nil => rfl
  | cons t ts ih =>
    rw [sumConsumed_cons, ih]
    simp [consumedFor]

theorem findTx_cons (t : Transaction) (ts : List Transaction) (h : List Char) :
    findTx (t :: ts) h = if calculate_tx_hash t = h then some t else findTx ts h := rfl

theorem sumConsumed_step (r : List Char × Nat) :
    ∀ (ts : List Transaction) (rs : List (List Char × Nat)),
    (ts.map calculate_tx_hash).Nodup → r ∉ rs →
    (↑(sumConsumed ts (r :: rs)) : Multiset ℕ) =
      ↑((refLookup ts r).toList) + ↑(sumConsumed ts rs) := by
  intro ts
  induction ts with
  | nil => intro rs _ _; simp [sumConsumed, refLookup, findTx]
  | cons t ts ih =>
    intro rs hnd hmemr
    rw [List.map_cons, List.nodup_cons] at hnd
    obtain ⟨hmem, htail⟩ := hnd
    rw [sumConsumed_cons, sumConsumed_cons]
    by_cases hc : calculate_tx_hash t = r.1
    · have htns : ∀ t' ∈ ts, calculate_tx_hash t' ≠ r.1 := by
        intro t' ht' heq
        apply hmem
        rw [show calculate_tx_hash t = calculate_tx_hash t' from by rw [hc, heq]]
        exact List.mem_map_of_mem _ ht'
      have hrf : refLookup (t :: ts) r = (t.outputs.get? r.2).map TxOutput.value := by
        unfold refLookup
        rw [findTx_cons, if_pos hc]
        rfl
      have htc : sumConsumed ts (r :: rs) = sumConsumed ts rs :=
        sumConsumed_cons_ne r ts rs htns
      have hcg : (outPairs t).filter
            (fun p => decide ((calculate_tx_hash t, p.1) ∈ r :: rs)) =
          (outPairs t).filter
            (fun p => decide (p.1 = r.2) || decide ((calculate_tx_hash t, p.1) ∈ rs)) := by
        apply List.filter_congr
        intro p _
        by_cases h1 : p.1 = r.2 <;>
          by_cases h2 : (calculate_tx_hash t, p.1) ∈ rs <;>
            simp [List.mem_cons, h1, h2, Prod.ext_iff, hc]
      have hdisj : ∀ p ∈ outPairs t,
          ¬(decide (p.1 = r.2) = true ∧
            decide ((calculate_tx_hash t, p.1) ∈ rs) = true) := by
        rintro p _ ⟨h1, h2⟩
        have h1' : p.1 = r.2 := of_decide_eq_true h1
        have h2' : (calculate_tx_hash t, p.1) ∈ rs := of_decide_eq_true h2
        apply hmemr
        have heq : (calculate_tx_hash t, p.1) = r := Prod.ext_iff.mpr ⟨hc, h1'⟩
        rwa [heq] at h2'
      have hperm : ((outPairs t).filter
            (fun p => decide (p.1 = r.2) || decide ((calculate_tx_hash t, p.1) ∈ rs))).Perm
          ((outPairs t).filter (fun p => decide (p.1 = r.2)) ++
            (outPairs t).filter (fun p => decide ((calculate_tx_hash t, p.1) ∈ rs))) :=
        filter_or_perm (outPairs t) (fun p => decide (p.1 = r.2))
          (fun p => decide ((calculate_tx_hash t, p.1) ∈ rs)) hdisj
      have hsplit : (↑(consumedFor (r :: rs) t) : Multiset ℕ) =
          ↑(((outPairs t).filter (fun p => decide (p.1 = r.2))).map Prod.snd) +
            ↑(consumedFor rs t) := by
        unfold consumedFor
        rw [hcg]
        have h1 := Multiset.coe_eq_coe.mpr (hperm.map Prod.snd)
        rw [List.map_append] at h1
        rw [h1, ← Multiset.coe_add]
      rw [htc, hrf, ← Multiset.coe_add, ← Multiset.coe_add, hsplit,
        filter_single_values t r.2]
      abel
    · have hrf : refLookup (t :: ts) r = refLookup ts r := by
        unfold refLookup
        rw [findTx_cons, if_neg hc]
      have hcf : consumedFor (r :: rs) t = consumedFor rs t :=
        consumedFor_cons_ne r rs t hc
      rw [hrf, hcf, ← Multiset.coe_add, ← Multiset.coe_add,
        ih rs htail hmemr]
      abel

theorem consumed_reindex : ∀ (S : List (List Char × Nat)) (ts : List Transaction),
    (ts.map calculate_tx_hash).Nodup → S.Nodup →
    (↑(S.filterMap (refLookup ts)) : Multiset ℕ) = ↑(sumConsumed ts S) := by
  intro S
  induction S with
  | nil => intro ts _ _; rw [sumConsumed_nil]; rfl
  | cons r rs ih =>
    intro ts hnd hS
    rw [List.nodup_cons] at hS
    obtain ⟨hr, hrs⟩ := hS
    have hfm : List.filterMap (refLookup ts) (r :: rs) =
        (refLookup ts r).toList ++ List.filterMap (refLookup ts) rs := by
      rcases h : refLookup ts r with _ | v <;> simp [List.filterMap_cons, h]
    rw [hfm, ← Multiset.coe_add, ih ts hnd hrs,
      (sumConsumed_step r ts rs hnd hr).symm]

end BlockchainRust

namespace BlockchainRust

/-! ## Claim C4: conservation -/

/-- C4 (amended): for every chain whose transactions have pairwise
distinct hashes and whose non-coinbase inputs reference pairwise distinct
`(prev_tx, prev_index)` pairs, the rebuilt UTXO index conserves value: the
multiset of unspent values plus the multiset of values consumed by
non-coinbase inputs (an input consumes the referenced output's value, or
nothing when the reference does not exist) equals the multiset of all
created output values; equivalently the unspent multiset is created minus
consumed. -/
theorem c4_conservation (blocks : List Block)
    (h1 : ((txsOf blocks).map calculate_tx_hash).Nodup)
    (h2 : (((nonCoinbase (inputsOf (txsOf blocks))).map refOf)).Nodup) :
    (↑(utxoValues (computeUtxo blocks)) : Multiset ℕ) + ↑(consumedList blocks) =
      ↑(createdList blocks) ∧
    (↑(createdList blocks) : Multiset ℕ) - ↑(consumedList blocks) =
      ↑(utxoValues (computeUtxo blocks)) := by
  have hcons : consumedList blocks =
      ((nonCoinbase (inputsOf (txsOf blocks))).map refOf).filterMap
        (refLookup (txsOf blocks)) := by
    unfold consumedList
    rw [List.filterMap_map]
    rfl
  have hmain : (↑(utxoValues (computeUtxo blocks)) : Multiset ℕ) +
      ↑(consumedList blocks) = ↑(createdList blocks) := by
    rw [computeUtxo_char blocks h1, utxoValues_mState, hcons,
      consumed_reindex _ _ h1 h2]
    exact values_partition (txsOf blocks) _
  exact ⟨hmain, by rw [← hmain]; exact add_tsub_cancel_right _ _⟩

/-- C4 counterexample: a chain containing two copies of the same coinbase
transaction (equal hashes) and one spend of their shared `(hash, 0)`
reference violates conservation — the single spend deletes both duplicate
index entries, so the unspent multiset is not created minus consumed. -/
theorem c4_conservation_counterexample :
    ¬ ((↑(utxoValues (computeUtxo dupChain)) : Multiset ℕ) =
       ↑(createdList dupChain) - ↑(consumedList dupChain)) ∧
    ¬ ((txsOf dupChain).map calculate_tx_hash).Nodup := by
  exact ⟨by decide, by decide⟩

theorem c4_conservation_witness :
    (((txsOf [genesisBlock 0]).map calculate_tx_hash).Nodup) ∧
    ((((nonCoinbase (inputsOf (txsOf [genesisBlock 0]))).map refOf)).Nodup) ∧
    (↑(utxoValues (computeUtxo [genesisBlock 0])) : Multiset ℕ) +
        ↑(consumedList [genesisBlock 0]) = ↑(createdList [genesisBlock 0]) :=
  ⟨by decide, by decide,
   (c4_conservation [genesisBlock 0] (by decide) (by decide)).1⟩

/-! ## Claim C8: pool reconciliation -/

theorem mem_txsOf {t : Transaction} {blk : Block} : ∀ {blocks : List Block},
    blk ∈ blocks → t ∈ blk.transactions → t ∈ txsOf blocks := by
  intro blocks
  induction blocks with
  | nil => intro h _; simp at h
  | cons b bs ih =>
    intro hb ht
    rw [txsOf_cons, List.mem_append]
    rcases List.mem_cons.mp hb with hb | hb
    · exact Or.inl (hb ▸ ht)
    · exact Or.inr (ih hb ht)

/-- C8: a transaction contained in an accepted block is removed from the
pending pool — both by the NewBlock handler (local append) and by the
SendBlocks handler when it replaces the chain (remote sync). -/
theorem c8_pool_reconciliation (bc : Blockchain) (pool : List Transaction)
    (b : Block) (sync : Bool) (cand : List Block) (blk : Block) (t : Transaction) :
    (t ∈ pool → t ∈ b.transactions → bc.validate_block b = true →
      t ∉ (handleNewBlock bc pool b).pool) ∧
    (t ∈ pool → blk ∈ cand → t ∈ blk.transactions →
      (handleSendBlocks bc pool sync cand).replaced = true →
      t ∉ (handleSendBlocks bc pool sync cand).pool) := by
  constructor
  · intro _ htx hv hmem
    unfold handleNewBlock at hmem
    rw [if_pos hv] at hmem
    have hdec := List.of_mem_filter hmem
    have h2 : t.calculate_hash ∉ b.transactions.map Transaction.calculate_hash :=
      of_decide_eq_true hdec
    exact h2 (List.mem_map_of_mem _ htx)
  · intro _ hblk htx hrep hmem
    unfold handleSendBlocks at hrep hmem
    by_cases hne : cand = []
    · rw [if_pos hne] at hrep
      exact absurd hrep (by simp)
    · rw [if_neg hne] at hrep hmem
      by_cases hlen : cand.length > bc.blocks.length
      · rw [if_pos hlen] at hrep hmem
        by_cases hval : validateCandidate bc.difficulty cand = true
        · rw [if_pos hval] at hmem
          have hdec := List.of_mem_filter hmem
          have h2 : t.calculate_hash ∉ (txsOf cand).map Transaction.calculate_hash :=
            of_decide_eq_true hdec
          exact h2 (List.mem_map_of_mem _ (mem_txsOf hblk htx))
        · rw [if_neg hval] at hrep
          exact absurd hrep (by simp)
      · rw [if_neg hlen] at hrep
        exact absurd hrep (by simp)

theorem c8_pool_reconciliation_witness :
    c8Tx ∈ [c8Tx] ∧ c8Tx ∈ c8Block.transactions ∧
    (Blockchain.new 0).validate_block c8Block = true ∧
    c8Tx ∉ (handleNewBlock (Blockchain.new 0) [c8Tx] c8Block).pool ∧
    (handleSendBlocks (Blockchain.new 0) [c8Tx] true
      [genesisBlock 0, c8Block]).replaced = true ∧
    c8Tx ∉ (handleSendBlocks (Blockchain.new 0) [c8Tx] true
      [genesisBlock 0, c8Block]).pool := by
  refine ⟨by simp, by simp [c8Block], by decide, ?_, by decide, ?_⟩
  · exact (c8_pool_reconciliation (Blockchain.new 0) [c8Tx] c8Block true
      [genesisBlock 0, c8Block] c8Block c8Tx).1 (by simp) (by simp [c8Block]) (by decide)
  · exact (c8_pool_reconciliation (Blockchain.new 0) [c8Tx] c8Block true
      [genesisBlock 0, c8Block] c8Block c8Tx).2 (by simp) (by simp) (by simp [c8Block])
      (by decide)

/-! ## Claim C10: wallet ignores output ownership -/

/-- C10: for a UTXO set consisting entirely of outputs locked to addresses
other than the wallet's, `create_transaction` still returns a transaction
spending those outputs, and that transaction passes `validate_transaction`
(signature authenticity is never checked). -/
theorem c10_wallet_ignores_ownership :
    (∀ b ∈ c10Chain.blocks, ∀ tx ∈ b.transactions, ∀ o ∈ tx.outputs,
      o.script_pubkey ≠ "alice".data) ∧
    Wallet.create_transaction "alice".data "carol".data 70 c10Chain.utxo_set =
      some c10Expected ∧
    c10Expected.inputs ≠ [] ∧
    (∀ inp ∈ c10Expected.inputs, inp.prev_tx = calculate_tx_hash c10OtherTx) ∧
    c10Chain.validate_transaction c10Expected = true := by
  exact ⟨by decide, by decide, by decide, by decide, by decide⟩

end BlockchainRust
